import Mathlib

/-!
Formal model of two Namada ledger subsystems:

* the validator vote-tally engine
  (`shared/src/ledger/protocol/transactions/votes.rs`), and
* the IBC `ValidationContext` implementation
  (`core/src/ledger/ibc/context/validation.rs`).

Rust `BTreeMap`s are modelled as association lists with overwrite-on-insert
(`vlookup` / `vinsert`); `FractionalVotingPower` (a `Ratio<u64>` wrapped
rational in `[0,1]`) is modelled by exact rational arithmetic on `ℚ`;
`u64` identifiers and block heights are modelled by `Nat` (no arithmetic
that could overflow is performed on them in the modelled slice).
-/

/-- A validator address (opaque identifier, `types::address::Address`). -/
abbrev Address := Nat

/-- A block height (`types::storage::BlockHeight`, a `u64` newtype). -/
abbrev BlockHeight := Nat

/-- Model of `FractionalVotingPower`: a rational voting-power fraction. -/
abbrev FractionalVotingPower := ℚ

/-- Model of `FractionalVotingPower::TWO_THIRDS` (the rational `2/3`, written with
`mkRat` so that concrete comparisons evaluate). -/
def TWO_THIRDS : FractionalVotingPower := mkRat 2 3

deriving instance DecidableEq for Except

/-- Model of `Votes = BTreeMap<Address, BlockHeight>` (votes.rs line 26), modelled as
an association list; the map operations appear below. -/
abbrev Votes := List (Address × BlockHeight)

/-- Map lookup on `Votes` (first binding wins). -/
def vlookup : Votes → Address → Option BlockHeight
  | [], _ => none
  | (k, v) :: t, a => if k = a then some v else vlookup t a

/-- Model of `BTreeMap::insert`: overwrite the binding of `a` when present,
append it otherwise. -/
def vinsert : Votes → Address → BlockHeight → Votes
  | [], a, h => [(a, h)]
  | (k, v) :: t, a, h =>
    if k = a then (a, h) :: t else (k, v) :: vinsert t a h

/-- The key set of a `Votes` map
(`seen_by.keys().cloned().collect::<BTreeSet<_>>()`). -/
def vkeysSet (m : Votes) : Finset Address := (m.map Prod.fst).toFinset

/-- Model of `Tally` (votes.rs lines 33-44). -/
structure Tally where
  voting_power : FractionalVotingPower
  seen_by : Votes
  seen : Bool
  deriving DecidableEq, Repr

/-- The summation loop of `calculate_new` (votes.rs lines 52-65): walk
`seen_by`, look up each `(validator, block_height)` in `voting_powers`
and accumulate; a missing entry aborts with an error. -/
def sumPowers
    (voting_powers : Address × BlockHeight → Option FractionalVotingPower) :
    Votes → FractionalVotingPower → Except String FractionalVotingPower
  | [], acc => .ok acc
  | p :: t, acc =>
    match voting_powers p with
    | some vp => sumPowers voting_powers t (acc + vp)
    | none => .error "voting power was not provided for validator"

/-- Model of `calculate_new` (votes.rs lines 48-74).  The `voting_powers`
`HashMap<(Address, BlockHeight), FractionalVotingPower>` is modelled by its
lookup function; the accumulator starts at
`FractionalVotingPower::default() = 0`. -/
def calculate_new (seen_by : Votes)
    (voting_powers : Address × BlockHeight → Option FractionalVotingPower) :
    Except String Tally :=
  match sumPowers voting_powers seen_by 0 with
  | .error e => .error e
  | .ok s => .ok ⟨s, seen_by, decide (TWO_THIRDS < s)⟩

/-- Model of `VoteInfo` (votes.rs lines 76-110): a `HashMap` from voter address to
the `(BlockHeight, FractionalVotingPower)` of its vote, modelled as a list
of entries; the `HashMap` key-uniqueness invariant (addresses pairwise
distinct) is a hypothesis of the theorems below. -/
abbrev VoteInfo := List (Address × BlockHeight × FractionalVotingPower)

/-- Model of `VoteInfo::voters` returns the set of voter addresses. -/
def voters (vi : VoteInfo) : Finset Address := (vi.map Prod.fst).toFinset

/-- Model of `calculate_update` (votes.rs lines 155-182): error when a new voter
already appears in `pre.seen_by` (non-empty intersection of the previous
and new voter sets); otherwise insert every new voter's height into
`seen_by`, add every new voter's power to `voting_power`, and recompute
`seen` as `voting_power_post > TWO_THIRDS`.  The source iterates the
(sorted, duplicate-free) voter set looking each voter up in the `VoteInfo`
map; here the fold runs over the entry list, which visits the same
duplicate-free entries. -/
def calculate_update (pre : Tally) (vi : VoteInfo) : Except String Tally :=
  if vkeysSet pre.seen_by ∩ voters vi ≠ ∅ then
    .error "Duplicate voters found"
  else
    let st := vi.foldl
      (fun st e => (st.1 + e.2.2, vinsert st.2 e.1 e.2.1))
      (pre.voting_power, pre.seen_by)
    .ok ⟨st.1, st.2, decide (TWO_THIRDS < st.1)⟩

/-- Model of `vote_tallies::Keys<T>`: the three storage sub-keys of one tally
(`keys.seen()`, `keys.seen_by()`, `keys.voting_power()`). -/
structure TallyKeys where
  seen_key : String
  seen_by_key : String
  voting_power_key : String

/-- Model of `ChangedKeys = BTreeSet<storage::Key>`. -/
abbrev ChangedKeys := Finset String

/-- Model of `validate_update` (votes.rs lines 187-246), flattened into a guard
chain that is extensionally the source's sequential checks:

1. if `pre.seen != post.seen` and the change is not `false → true`, error;
2. if the voter key sets differ and `post`'s is not a superset, error;
3. if the voting powers differ and `post`'s has not strictly increased,
   error;
4. if `post.voting_power > TWO_THIRDS`, the local `seen` flag is unset
   (which at this point is exactly `pre.seen = post.seen`) and
   `pre.voting_power >= post.voting_power`, error;
5. otherwise return the keys recorded by the checks that saw a change. -/
def validate_update (keys : TallyKeys) (pre post : Tally) :
    Except String ChangedKeys :=
  if pre.seen ≠ post.seen ∧ (pre.seen = true ∨ post.seen = false) then
    .error "Tally seen changed"
  else if vkeysSet pre.seen_by ≠ vkeysSet post.seen_by ∧
      ¬ vkeysSet pre.seen_by ⊆ vkeysSet post.seen_by then
    .error "Tally seen_by changed"
  else if pre.voting_power ≠ post.voting_power ∧
      post.voting_power ≤ pre.voting_power then
    .error "Tally voting_power changed"
  else if TWO_THIRDS < post.voting_power ∧ pre.seen = post.seen ∧
      post.voting_power ≤ pre.voting_power then
    .error "Tally is not seen even though new voting_power is enough"
  else
    .ok ((if pre.seen ≠ post.seen then {keys.seen_key} else ∅)
      ∪ (if vkeysSet pre.seen_by ≠ vkeysSet post.seen_by
          then {keys.seen_by_key} else ∅)
      ∪ (if pre.voting_power ≠ post.voting_power
          then {keys.voting_power_key} else ∅))

/-- Model of `dedupe` (votes.rs lines 251-253): iterate the sorted signer set in
reverse and collect into a map, so that for each address the last (i.e.
smallest-height) insertion wins.  The `BTreeSet<(Address, BlockHeight)>`
argument is modelled as a list that the theorems require to be strictly
sorted in the set's lexicographic order. -/
def dedupe (signers : List (Address × BlockHeight)) : Votes :=
  signers.reverse.foldl (fun m p => vinsert m p.1 p.2) []

/-- The strict lexicographic order in which a
`BTreeSet<(Address, BlockHeight)>` stores and iterates its elements. -/
def sigLt (p q : Address × BlockHeight) : Prop :=
  p.1 < q.1 ∨ (p.1 = q.1 ∧ p.2 < q.2)

instance (p q : Address × BlockHeight) : Decidable (sigLt p q) := by
  unfold sigLt; exact inferInstance

/-! Part: Association-list map lemmas -/

theorem vlookup_vinsert_self (m : Votes) (a : Address) (h : BlockHeight) :
    vlookup (vinsert m a h) a = some h := by
  induction m with
  | nil => simp [vinsert, vlookup]
  | cons p t ih =>
    obtain ⟨k, v⟩ := p
    by_cases hk : k = a <;> simp [vinsert, vlookup, hk, ih]

theorem vlookup_vinsert_ne (m : Votes) (a b : Address) (h : BlockHeight)
    (hne : b ≠ a) : vlookup (vinsert m a h) b = vlookup m b := by
  have hab : ¬ a = b := fun hh => hne hh.symm
  induction m with
  | nil => simp [vinsert, vlookup, hab]
  | cons p t ih =>
    obtain ⟨k, v⟩ := p
    by_cases hk : k = a
    · subst hk
      simp [vinsert, vlookup, hab]
    · by_cases hkb : k = b <;> simp [vinsert, vlookup, hk, hkb, hne, ih]

theorem vkeysSet_vinsert (m : Votes) (a : Address) (h : BlockHeight) :
    vkeysSet (vinsert m a h) = insert a (vkeysSet m) := by
  induction m with
  | nil => simp [vinsert, vkeysSet]
  | cons p t ih =>
    obtain ⟨k, v⟩ := p
    by_cases hk : k = a
    · subst hk
      simp [vinsert, vkeysSet]
    · simp only [vinsert, if_neg hk, vkeysSet, List.map_cons, List.toFinset_cons]
      rw [show ((vinsert t a h).map Prod.fst).toFinset = vkeysSet (vinsert t a h) from rfl,
        ih]
      exact Finset.Insert.comm k a (vkeysSet t)

theorem mem_vkeysSet_iff (m : Votes) (a : Address) :
    a ∈ vkeysSet m ↔ ∃ h, (a, h) ∈ m := by
  simp only [vkeysSet, List.mem_toFinset, List.mem_map]
  constructor
  · rintro ⟨⟨k, v⟩, hm, rfl⟩
    exact ⟨v, hm⟩
  · rintro ⟨h, hm⟩
    exact ⟨(a, h), hm, rfl⟩

/-! Part: C5: `calculate_new` -/

theorem sumPowers_ok
    (powers : Address × BlockHeight → Option FractionalVotingPower)
    (sb : Votes) (acc : FractionalVotingPower)
    (hall : ∀ p ∈ sb, (powers p).isSome) :
    sumPowers powers sb acc =
      .ok (acc + (sb.map (fun p => (powers p).getD 0)).sum) := by
  induction sb generalizing acc with
  | nil => simp [sumPowers]
  | cons p t ih =>
    obtain ⟨vp, hvp⟩ := Option.isSome_iff_exists.mp (hall p (by simp))
    have step : sumPowers powers (p :: t) acc = sumPowers powers t (acc + vp) := by
      simp [sumPowers, hvp]
    rw [step, ih (acc + vp) (fun q hq => hall q (by simp [hq]))]
    simp [hvp, add_assoc]

theorem sumPowers_missing
    (powers : Address × BlockHeight → Option FractionalVotingPower)
    (sb : Votes) (acc : FractionalVotingPower)
    (hmiss : ∃ p ∈ sb, powers p = none) :
    ∃ e, sumPowers powers sb acc = .error e := by
  induction sb generalizing acc with
  | nil => simp at hmiss
  | cons p t ih =>
    obtain ⟨q, hq, hqn⟩ := hmiss
    rcases List.mem_cons.mp hq with rfl | hqt
    · exact ⟨"voting power was not provided for validator",
        by simp [sumPowers, hqn]⟩
    · cases hp : powers p with
      | none =>
        exact ⟨"voting power was not provided for validator",
          by simp [sumPowers, hp]⟩
      | some vp =>
        obtain ⟨e, he⟩ := ih (acc + vp) ⟨q, hqt, hqn⟩
        exact ⟨e, by simp [sumPowers, hp, he]⟩

/-- C5: `calculate_new` errors when some `(validator, height)` pair of
`seen_by` has no entry in `voting_powers`; otherwise it returns a `Tally`
whose `voting_power` is the sum of the matching powers, whose `seen_by` is
the input map, and whose `seen` flag is true iff that sum is strictly
greater than `2/3` (a sum of exactly `2/3` yields `seen = false`). -/
theorem calculate_new_spec (sb : Votes)
    (powers : Address × BlockHeight → Option FractionalVotingPower) :
    ((∃ p ∈ sb, powers p = none) →
      ∃ e, calculate_new sb powers = .error e) ∧
    ((∀ p ∈ sb, (powers p).isSome) →
      calculate_new sb powers =
        .ok ⟨(sb.map (fun p => (powers p).getD 0)).sum, sb,
          decide (TWO_THIRDS < (sb.map (fun p => (powers p).getD 0)).sum)⟩) ∧
    (∀ t, calculate_new sb powers = .ok t →
      (t.seen = true ↔ TWO_THIRDS < t.voting_power)) := by
  refine ⟨fun hmiss => ?_, fun hall => ?_, fun t hok => ?_⟩
  · obtain ⟨e, he⟩ := sumPowers_missing powers sb 0 hmiss
    exact ⟨e, by simp [calculate_new, he]⟩
  · rw [calculate_new, sumPowers_ok powers sb 0 hall]
    simp
  · rw [calculate_new] at hok
    cases hs : sumPowers powers sb 0 with
    | error e => rw [hs] at hok; exact absurd hok (by simp)
    | ok s =>
      rw [hs] at hok
      simp only [Except.ok.injEq] at hok
      subst hok
      simp

/-! Part: C6: `calculate_update` -/

theorem calcfold_fst (vi : VoteInfo) (x : FractionalVotingPower) (m : Votes) :
    (vi.foldl (fun st e => (st.1 + e.2.2, vinsert st.2 e.1 e.2.1)) (x, m)).1 =
      x + (vi.map (fun e => e.2.2)).sum := by
  induction vi generalizing x m with
  | nil => simp
  | cons e t ih => simp [ih, add_assoc]

theorem calcfold_snd_notin (vi : VoteInfo) (x : FractionalVotingPower)
    (m : Votes) (a : Address) (ha : a ∉ vi.map Prod.fst) :
    vlookup
      (vi.foldl (fun st e => (st.1 + e.2.2, vinsert st.2 e.1 e.2.1)) (x, m)).2
      a = vlookup m a := by
  induction vi generalizing x m with
  | nil => simp
  | cons e t ih =>
    simp only [List.map_cons, List.mem_cons, not_or] at ha
    simp only [List.foldl_cons]
    rw [ih _ _ ha.2, vlookup_vinsert_ne _ _ _ _ ha.1]

theorem calcfold_snd_mem (vi : VoteInfo) (x : FractionalVotingPower)
    (m : Votes) (hnd : (vi.map Prod.fst).Nodup)
    (e : Address × BlockHeight × FractionalVotingPower) (he : e ∈ vi) :
    vlookup
      (vi.foldl (fun st e => (st.1 + e.2.2, vinsert st.2 e.1 e.2.1)) (x, m)).2
      e.1 = some e.2.1 := by
  induction vi generalizing x m with
  | nil => simp at he
  | cons f t ih =>
    simp only [List.map_cons, List.nodup_cons] at hnd
    rcases List.mem_cons.mp he with rfl | het
    · simp only [List.foldl_cons]
      rw [calcfold_snd_notin t _ _ _ hnd.1, vlookup_vinsert_self]
    · simp only [List.foldl_cons]
      exact ih _ _ hnd.2 het

/-- C6: `calculate_update(pre, vote_info)` errors exactly when some
voter of `vote_info` already appears as a key of `pre.seen_by`; with
disjoint voter sets it returns a `Tally` whose `seen_by` is `pre.seen_by`
extended with each new voter mapped to that voter's vote height, whose
`voting_power` is `pre.voting_power` plus the sum of the new voters'
powers, and whose `seen` flag equals `new voting_power > 2/3`. -/
theorem calculate_update_spec (pre : Tally) (vi : VoteInfo)
    (hnd : (vi.map Prod.fst).Nodup) :
    ((∃ e, calculate_update pre vi = .error e) ↔
      ∃ a ∈ voters vi, a ∈ vkeysSet pre.seen_by) ∧
    ((∀ a ∈ voters vi, a ∉ vkeysSet pre.seen_by) →
      ∃ t, calculate_update pre vi = .ok t ∧
        t.voting_power = pre.voting_power + (vi.map (fun e => e.2.2)).sum ∧
        (∀ e ∈ vi, vlookup t.seen_by e.1 = some e.2.1) ∧
        (∀ a, a ∉ voters vi → vlookup t.seen_by a = vlookup pre.seen_by a) ∧
        (t.seen = true ↔ TWO_THIRDS < t.voting_power)) := by
  by_cases hc : vkeysSet pre.seen_by ∩ voters vi ≠ ∅
  · obtain ⟨a, ha⟩ := Finset.nonempty_iff_ne_empty.mpr hc
    rw [Finset.mem_inter] at ha
    refine ⟨⟨fun _ => ⟨a, ha.2, ha.1⟩, fun _ => ?_⟩, fun hdisj => ?_⟩
    · exact ⟨"Duplicate voters found", by simp [calculate_update, hc]⟩
    · exact absurd ha.1 (hdisj a ha.2)
  · have hcalc : calculate_update pre vi =
        .ok ⟨(vi.foldl (fun st e => (st.1 + e.2.2, vinsert st.2 e.1 e.2.1))
            (pre.voting_power, pre.seen_by)).1,
          (vi.foldl (fun st e => (st.1 + e.2.2, vinsert st.2 e.1 e.2.1))
            (pre.voting_power, pre.seen_by)).2,
          decide (TWO_THIRDS <
            (vi.foldl (fun st e => (st.1 + e.2.2, vinsert st.2 e.1 e.2.1))
              (pre.voting_power, pre.seen_by)).1)⟩ := by
      simp [calculate_update, hc]
    constructor
    · constructor
      · rintro ⟨e, he⟩
        rw [hcalc] at he
        exact absurd he (by simp)
      · rintro ⟨a, hav, hak⟩
        rw [not_not] at hc
        have : a ∈ vkeysSet pre.seen_by ∩ voters vi := Finset.mem_inter.mpr ⟨hak, hav⟩
        rw [hc] at this
        exact absurd this (Finset.not_mem_empty a)
    · intro _
      refine ⟨_, hcalc, ?_, ?_, ?_⟩
      · exact calcfold_fst vi pre.voting_power pre.seen_by
      · intro e he
        exact calcfold_snd_mem vi pre.voting_power pre.seen_by hnd e he
      · constructor
        · intro a hav
          have : a ∉ vi.map Prod.fst := by
            intro hm
            exact hav (by simpa [voters] using hm)
          exact calcfold_snd_notin vi pre.voting_power pre.seen_by a this
        · simp

/-! Part: C2: `validate_update` monotonicity -/

/-- C2: whenever `validate_update(keys, pre, post)` returns `Ok`, the
key set of `post.seen_by` is a superset of the key set of `pre.seen_by`,
`post.voting_power >= pre.voting_power`, and `pre.seen` implies
`post.seen`. -/
theorem validate_update_monotone (keys : TallyKeys) (pre post : Tally)
    (ck : ChangedKeys) (hok : validate_update keys pre post = .ok ck) :
    vkeysSet pre.seen_by ⊆ vkeysSet post.seen_by ∧
    pre.voting_power ≤ post.voting_power ∧
    (pre.seen = true → post.seen = true) := by
  rw [validate_update] at hok
  by_cases h1 : pre.seen ≠ post.seen ∧ (pre.seen = true ∨ post.seen = false)
  · rw [if_pos h1] at hok
    exact absurd hok (by simp)
  rw [if_neg h1] at hok
  by_cases h2 : vkeysSet pre.seen_by ≠ vkeysSet post.seen_by ∧
      ¬ vkeysSet pre.seen_by ⊆ vkeysSet post.seen_by
  · rw [if_pos h2] at hok
    exact absurd hok (by simp)
  rw [if_neg h2] at hok
  by_cases h3 : pre.voting_power ≠ post.voting_power ∧
      post.voting_power ≤ pre.voting_power
  · rw [if_pos h3] at hok
    exact absurd hok (by simp)
  refine ⟨?_, ?_, ?_⟩
  · by_cases he : vkeysSet pre.seen_by = vkeysSet post.seen_by
    · exact he ▸ Finset.Subset.refl _
    · exact not_not.mp (not_and.mp h2 he)
  · by_cases hv : pre.voting_power = post.voting_power
    · exact le_of_eq hv
    · exact le_of_lt (lt_of_not_le (not_and.mp h3 hv))
  · intro hp
    by_cases hq : post.seen = true
    · exact hq
    · have hq' : post.seen = false := by simpa using hq
      exact absurd ⟨by simp [hp, hq'], Or.inl hp⟩ h1

/-! Part: C3: the quorum-paradox branch of `validate_update` -/

/-- Concrete inputs exhibiting the quorum-paradox branch: an unchanged
tally whose voting power exceeds two thirds. -/
def paradoxKeys : TallyKeys := ⟨"seen", "seen_by", "voting_power"⟩

/-- An above-quorum tally used as both `pre` and `post`. -/
def paradoxTally : Tally := ⟨1, [(1, 10)], true⟩

/-- C3 (counterexample): at `pre = post = paradoxTally` every earlier
check of `validate_update` passes (nothing changed), yet the final
quorum-paradox error is raised — the branch is reachable. -/
theorem quorum_paradox_branch_reachable :
    (¬ (paradoxTally.seen ≠ paradoxTally.seen ∧
        (paradoxTally.seen = true ∨ paradoxTally.seen = false))) ∧
    (¬ (vkeysSet paradoxTally.seen_by ≠ vkeysSet paradoxTally.seen_by ∧
        ¬ vkeysSet paradoxTally.seen_by ⊆ vkeysSet paradoxTally.seen_by)) ∧
    (¬ (paradoxTally.voting_power ≠ paradoxTally.voting_power ∧
        paradoxTally.voting_power ≤ paradoxTally.voting_power)) ∧
    validate_update paradoxKeys paradoxTally paradoxTally =
      .error "Tally is not seen even though new voting_power is enough" := by
  refine ⟨by simp, by simp, by simp, ?_⟩
  rw [validate_update, if_neg (by simp), if_neg (by simp), if_neg (by simp),
    if_pos ⟨by decide, rfl, le_refl _⟩]

/-- C3 (amended): given that the three earlier checks of
`validate_update` pass, the quorum-paradox error is raised exactly when
`post.voting_power > 2/3`, `seen` did not change, and
`pre.voting_power = post.voting_power`; in particular the branch is
reachable (e.g. for an unchanged above-quorum tally), not unreachable. -/
theorem validate_update_quorum_branch_iff (keys : TallyKeys)
    (pre post : Tally)
    (h1 : ¬ (pre.seen ≠ post.seen ∧ (pre.seen = true ∨ post.seen = false)))
    (h2 : ¬ (vkeysSet pre.seen_by ≠ vkeysSet post.seen_by ∧
        ¬ vkeysSet pre.seen_by ⊆ vkeysSet post.seen_by))
    (h3 : ¬ (pre.voting_power ≠ post.voting_power ∧
        post.voting_power ≤ pre.voting_power)) :
    validate_update keys pre post =
        .error "Tally is not seen even though new voting_power is enough" ↔
      (TWO_THIRDS < post.voting_power ∧ pre.seen = post.seen ∧
        pre.voting_power = post.voting_power) := by
  rw [validate_update, if_neg h1, if_neg h2, if_neg h3]
  by_cases h4 : TWO_THIRDS < post.voting_power ∧ pre.seen = post.seen ∧
      post.voting_power ≤ pre.voting_power
  · rw [if_pos h4]
    constructor
    · intro _
      refine ⟨h4.1, h4.2.1, ?_⟩
      by_cases hv : pre.voting_power = post.voting_power
      · exact hv
      · exact absurd ⟨hv, h4.2.2⟩ h3
    · intro _
      rfl
  · rw [if_neg h4]
    constructor
    · intro h
      exact absurd h (by simp)
    · intro hr
      exact absurd ⟨hr.1, hr.2.1, le_of_eq hr.2.2.symm⟩ h4

/-- Witness for the amended C3 statement at the concrete paradox input. -/
theorem validate_update_quorum_branch_iff_witness :
    (¬ (paradoxTally.seen ≠ paradoxTally.seen ∧
        (paradoxTally.seen = true ∨ paradoxTally.seen = false))) ∧
    (validate_update paradoxKeys paradoxTally paradoxTally =
        .error "Tally is not seen even though new voting_power is enough" ↔
      (TWO_THIRDS < paradoxTally.voting_power ∧
        paradoxTally.seen = paradoxTally.seen ∧
        paradoxTally.voting_power = paradoxTally.voting_power)) :=
  ⟨by simp,
    validate_update_quorum_branch_iff paradoxKeys paradoxTally paradoxTally
      (by simp) (by simp) (by simp)⟩

/-! Part: C10: identity update below quorum -/

/-- C10: revalidating a completely unchanged tally whose voting power
is at most `2/3` succeeds and reports no changed keys. -/
theorem validate_update_identity_below_quorum (keys : TallyKeys) (t : Tally)
    (h : t.voting_power ≤ TWO_THIRDS) :
    validate_update keys t t = .ok ∅ := by
  rw [validate_update, if_neg (by simp), if_neg (by simp), if_neg (by simp),
    if_neg (fun hc => absurd h (not_le.mpr hc.1))]
  simp

/-- Witness for C10 at a concrete empty tally. -/
theorem validate_update_identity_below_quorum_witness :
    ((⟨0, [], false⟩ : Tally).voting_power ≤ TWO_THIRDS) ∧
    validate_update ⟨"seen", "seen_by", "voting_power"⟩
      ⟨0, [], false⟩ ⟨0, [], false⟩ = .ok ∅ :=
  ⟨by decide,
    validate_update_identity_below_quorum ⟨"seen", "seen_by", "voting_power"⟩
      ⟨0, [], false⟩ (by decide)⟩

/-! Part: C7: `dedupe` -/

theorem dedupe_foldr (l : List (Address × BlockHeight)) :
    dedupe l = l.foldr (fun p m => vinsert m p.1 p.2) [] := by
  rw [dedupe, List.foldl_reverse]

theorem vkeysSet_dedupe (l : List (Address × BlockHeight)) :
    vkeysSet (dedupe l) = (l.map Prod.fst).toFinset := by
  rw [dedupe_foldr]
  induction l with
  | nil => rfl
  | cons p t ih => simp [vkeysSet_vinsert, ih]

theorem dedupeFoldr_lookup :
    ∀ (l : List (Address × BlockHeight)), l.Pairwise sigLt →
      ∀ (a : Address) (h : BlockHeight),
        vlookup (l.foldr (fun p m => vinsert m p.1 p.2) []) a = some h ↔
          ((a, h) ∈ l ∧ ∀ h', (a, h') ∈ l → h ≤ h')
  | [], _, a, h => by simp [vlookup]
  | ⟨pa, ph⟩ :: t, hs, a, h => by
    obtain ⟨hp, ht⟩ := List.pairwise_cons.mp hs
    have iht := dedupeFoldr_lookup t ht
    simp only [List.foldr_cons]
    by_cases ha : a = pa
    · subst ha
      rw [vlookup_vinsert_self]
      constructor
      · intro hh
        injection hh with hh
        subst hh
        refine ⟨List.mem_cons_self _ _, ?_⟩
        intro h' hh'
        rcases List.mem_cons.mp hh' with heq | hmem
        · simp only [Prod.mk.injEq, true_and] at heq
          subst heq
          exact le_refl _
        · rcases hp _ hmem with hlt | ⟨-, hlt⟩
          · exact absurd hlt (lt_irrefl _)
          · exact le_of_lt hlt
      · rintro ⟨hmem, hmin⟩
        rcases List.mem_cons.mp hmem with heq | hmem'
        · simp only [Prod.mk.injEq, true_and] at heq
          subst heq
          rfl
        · rcases hp _ hmem' with hlt | ⟨-, hlt⟩
          · exact absurd hlt (lt_irrefl _)
          · exact absurd (hmin ph (List.mem_cons_self _ _)) (not_le.mpr hlt)
    · rw [vlookup_vinsert_ne _ _ _ _ ha, iht a h]
      constructor
      · rintro ⟨hm, hmin⟩
        refine ⟨List.mem_cons_of_mem _ hm, ?_⟩
        intro h' hh'
        rcases List.mem_cons.mp hh' with heq | hmem'
        · exact absurd (congrArg Prod.fst heq) ha
        · exact hmin h' hmem'
      · rintro ⟨hm, hmin⟩
        rcases List.mem_cons.mp hm with heq | hm'
        · exact absurd (congrArg Prod.fst heq) ha
        · exact ⟨hm', fun h' hh' => hmin h' (List.mem_cons_of_mem _ hh')⟩

/-- C7: for a signer set `S` (a strictly lex-sorted, duplicate-free
list, as iterated by `BTreeSet`), `dedupe S` is a map whose key set is
exactly the set of addresses appearing in `S`, and which maps every such
address to the least block height paired with it in `S`; being a pure
function of the sorted input, the result is deterministic. -/
theorem dedupe_spec (l : List (Address × BlockHeight))
    (hs : l.Pairwise sigLt) :
    vkeysSet (dedupe l) = (l.map Prod.fst).toFinset ∧
    ∀ (a : Address) (h : BlockHeight),
      vlookup (dedupe l) a = some h ↔
        ((a, h) ∈ l ∧ ∀ h', (a, h') ∈ l → h ≤ h') := by
  refine ⟨vkeysSet_dedupe l, fun a h => ?_⟩
  rw [dedupe_foldr]
  exact dedupeFoldr_lookup l hs a h

/-- Witness for C7 at the spec's two-voter scenario. -/
theorem dedupe_spec_witness :
    (([(1, 100), (1, 101), (1, 200), (2, 200), (2, 201), (2, 300)] :
        List (Address × BlockHeight)).Pairwise sigLt) ∧
    (vkeysSet (dedupe [(1, 100), (1, 101), (1, 200), (2, 200), (2, 201),
          (2, 300)]) =
        (([(1, 100), (1, 101), (1, 200), (2, 200), (2, 201), (2, 300)] :
          List (Address × BlockHeight)).map Prod.fst).toFinset ∧
      ∀ (a : Address) (h : BlockHeight),
        vlookup (dedupe [(1, 100), (1, 101), (1, 200), (2, 200), (2, 201),
            (2, 300)]) a = some h ↔
          ((a, h) ∈ ([(1, 100), (1, 101), (1, 200), (2, 200), (2, 201),
              (2, 300)] : List (Address × BlockHeight)) ∧
            ∀ h', (a, h') ∈ ([(1, 100), (1, 101), (1, 200), (2, 200),
                (2, 201), (2, 300)] : List (Address × BlockHeight)) →
              h ≤ h')) :=
  ⟨by decide, dedupe_spec _ (by decide)⟩

/-! Part: IBC validation context (core/src/ledger/ibc/context/validation.rs) -/

/-- An IBC `Height`: `(revision_number, revision_height)`, two `u64`s. -/
structure Height where
  revision_number : Nat
  revision_height : Nat
  deriving DecidableEq, Repr

/-- The strict order on `Height` used by the source's `<` / `>` comparisons
(ibc-rs orders heights lexicographically by revision number, then
revision height). -/
def heightLt (x y : Height) : Prop :=
  x.revision_number < y.revision_number ∨
    (x.revision_number = y.revision_number ∧
      x.revision_height < y.revision_height)

instance (x y : Height) : Decidable (heightLt x y) := by
  unfold heightLt
  exact inferInstance

theorem heightLt_irrefl (x : Height) : ¬ heightLt x x := by
  simp [heightLt]

theorem heightLt_trans {x y z : Height} (h1 : heightLt x y)
    (h2 : heightLt y z) : heightLt x z := by
  simp only [heightLt] at h1 h2 ⊢
  omega

theorem not_heightLt_trans {x y z : Height} (h1 : ¬ heightLt x y)
    (h2 : ¬ heightLt y z) : ¬ heightLt x z := by
  simp only [heightLt] at h1 h2 ⊢
  omega

theorem heightLt_conn {x y : Height} (h1 : ¬ heightLt x y)
    (h2 : ¬ heightLt y x) : x = y := by
  obtain ⟨a, b⟩ := x
  obtain ⟨c, d⟩ := y
  simp only [heightLt] at h1 h2
  have hac : a = c ∧ b = d := by omega
  rw [hac.1, hac.2]

/-- One iteration of the consensus-state scans of `next_consensus_state` /
`prev_consensus_state` (validation.rs lines 95-103 and 145-153): when the
entry's height satisfies the candidate test `cand` (strictly above,
respectively below, the target), it replaces the current best candidate
when `bet` says it is better (lower, respectively higher) or when there is
no candidate yet; otherwise the accumulator is kept. -/
def selStep {V : Type} (cand : Height → Prop) [DecidablePred cand]
    (bet : Height → Height → Prop) [DecidableRel bet]
    (acc : Option (Height × V)) (e : Height × V) : Option (Height × V) :=
  if cand e.1 then
    match acc with
    | some (b, v) => if bet e.1 b then some (e.1, e.2) else some (b, v)
    | none => some (e.1, e.2)
  else acc

/-- Model of `next_consensus_state` (validation.rs lines 67-115): scan the
client's consensus-state index in its (arbitrary) iteration order, keeping
the entry of lowest height strictly greater than `height`; return its
value, or `None` when no entry lies above.  The index is modelled as the
list of iterated entries, each carrying the height parsed from its key
(`storage::consensus_height`) and the decoded consensus state (decoding,
which belongs to the encoding layer, is abstracted). -/
def next_consensus_state {V : Type} (entries : List (Height × V))
    (height : Height) : Option V :=
  (entries.foldl
    (selStep (fun ch => heightLt height ch) (fun ch lowest => heightLt ch lowest))
    none).map Prod.snd

/-- Model of `prev_consensus_state` (validation.rs lines 117-165): the
symmetric scan, keeping the entry of highest height strictly less than
`height`. -/
def prev_consensus_state {V : Type} (entries : List (Height × V))
    (height : Height) : Option V :=
  (entries.foldl
    (selStep (fun ch => heightLt ch height) (fun ch highest => heightLt highest ch))
    none).map Prod.snd

section ConsensusScan

variable {V : Type} (cand : Height → Prop) [DecidablePred cand]
variable (bet : Height → Height → Prop) [DecidableRel bet]

theorem selStep_eq_none_iff (acc : Option (Height × V)) (e : Height × V) :
    selStep cand bet acc e = none ↔ acc = none ∧ ¬ cand e.1 := by
  unfold selStep
  by_cases hc : cand e.1
  · rw [if_pos hc]
    cases acc with
    | none => simp [hc]
    | some b =>
      obtain ⟨bh, bv⟩ := b
      by_cases hb : bet e.1 bh <;> simp [hb, hc]
  · rw [if_neg hc]
    simp [hc]

theorem selFold_eq_none (l : List (Height × V)) (acc : Option (Height × V)) :
    l.foldl (selStep cand bet) acc = none ↔
      acc = none ∧ ∀ p ∈ l, ¬ cand p.1 := by
  induction l generalizing acc with
  | nil => simp
  | cons e t ih =>
    rw [List.foldl_cons, ih, selStep_eq_none_iff]
    constructor
    · rintro ⟨⟨hacc, hce⟩, hall⟩
      refine ⟨hacc, fun p hp => ?_⟩
      rcases List.mem_cons.mp hp with rfl | hpt
      · exact hce
      · exact hall p hpt
    · rintro ⟨hacc, hall⟩
      exact ⟨⟨hacc, hall e (List.mem_cons_self _ _)⟩,
        fun p hp => hall p (List.mem_cons_of_mem _ hp)⟩

theorem selFold_some_sound
    (hbt : ∀ x y z : Height, bet x y → bet y z → bet x z)
    (hnbt : ∀ x y z : Height, ¬ bet x y → ¬ bet y z → ¬ bet x z)
    (hirr : ∀ x : Height, ¬ bet x x) :
    ∀ (l : List (Height × V)) (acc : Option (Height × V)) (q : Height × V),
      l.foldl (selStep cand bet) acc = some q →
        ((q ∈ l ∧ cand q.1) ∨ acc = some q) ∧
        (∀ p ∈ l, cand p.1 → ¬ bet p.1 q.1) ∧
        (∀ a, acc = some a → ¬ bet a.1 q.1) := by
  intro l
  induction l with
  | nil =>
    intro acc q hq
    simp only [List.foldl_nil] at hq
    subst hq
    refine ⟨Or.inr rfl, by simp, fun a ha => ?_⟩
    injection ha with ha
    rw [ha]
    exact hirr _
  | cons e t ih =>
    intro acc q hq
    rw [List.foldl_cons] at hq
    obtain ⟨hA, hB, hC⟩ := ih (selStep cand bet acc e) q hq
    by_cases hc : cand e.1
    · cases acc with
      | none =>
        have hstep : selStep cand bet none e = some (e.1, e.2) := by
          simp [selStep, hc]
        rw [hstep] at hA hC
        have heq : ¬ bet e.1 q.1 := by
          have := hC (e.1, e.2) rfl
          simpa using this
        refine ⟨?_, ?_, by simp⟩
        · rcases hA with ⟨hm, hcq⟩ | hqe
          · exact Or.inl ⟨List.mem_cons_of_mem _ hm, hcq⟩
          · injection hqe with hqe
            rw [← hqe]
            exact Or.inl ⟨by simp, hc⟩
        · intro p hp hcp
          rcases List.mem_cons.mp hp with rfl | hpt
          · exact heq
          · exact hB p hpt hcp
      | some b =>
        obtain ⟨bh, bv⟩ := b
        by_cases hbet : bet e.1 bh
        · have hstep : selStep cand bet (some (bh, bv)) e = some (e.1, e.2) := by
            simp [selStep, hc, hbet]
          rw [hstep] at hA hC
          have heq : ¬ bet e.1 q.1 := by
            have := hC (e.1, e.2) rfl
            simpa using this
          refine ⟨?_, ?_, ?_⟩
          · rcases hA with ⟨hm, hcq⟩ | hqe
            · exact Or.inl ⟨List.mem_cons_of_mem _ hm, hcq⟩
            · injection hqe with hqe
              rw [← hqe]
              exact Or.inl ⟨by simp, hc⟩
          · intro p hp hcp
            rcases List.mem_cons.mp hp with rfl | hpt
            · exact heq
            · exact hB p hpt hcp
          · intro a ha
            injection ha with ha
            rw [← ha]
            intro hba
            exact heq (hbt _ _ _ hbet hba)
        · have hstep : selStep cand bet (some (bh, bv)) e = some (bh, bv) := by
            simp [selStep, hc, hbet]
          rw [hstep] at hA hC
          have hbq : ¬ bet bh q.1 := by
            have := hC (bh, bv) rfl
            simpa using this
          refine ⟨?_, ?_, ?_⟩
          · rcases hA with ⟨hm, hcq⟩ | hqe
            · exact Or.inl ⟨List.mem_cons_of_mem _ hm, hcq⟩
            · exact Or.inr hqe
          · intro p hp hcp
            rcases List.mem_cons.mp hp with rfl | hpt
            · exact hnbt _ _ _ hbet hbq
            · exact hB p hpt hcp
          · intro a ha
            injection ha with ha
            rw [← ha]
            exact hbq
    · have hstep : selStep cand bet acc e = acc := by
        simp [selStep, hc]
      rw [hstep] at hA hC
      refine ⟨?_, ?_, hC⟩
      · rcases hA with ⟨hm, hcq⟩ | hqe
        · exact Or.inl ⟨List.mem_cons_of_mem _ hm, hcq⟩
        · exact Or.inr hqe
      · intro p hp hcp
        rcases List.mem_cons.mp hp with rfl | hpt
        · exact absurd hcp hc
        · exact hB p hpt hcp

theorem selFold_some_iff
    (hbt : ∀ x y z : Height, bet x y → bet y z → bet x z)
    (hnbt : ∀ x y z : Height, ¬ bet x y → ¬ bet y z → ¬ bet x z)
    (hirr : ∀ x : Height, ¬ bet x x)
    (hconn : ∀ x y : Height, ¬ bet x y → ¬ bet y x → x = y)
    (l : List (Height × V)) (hnd : (l.map Prod.fst).Nodup) (q : Height × V) :
    l.foldl (selStep cand bet) none = some q ↔
      (q ∈ l ∧ cand q.1 ∧ ∀ p ∈ l, cand p.1 → ¬ bet p.1 q.1) := by
  constructor
  · intro h
    obtain ⟨hA, hB, -⟩ := selFold_some_sound cand bet hbt hnbt hirr l none q h
    rcases hA with ⟨hm, hcq⟩ | habs
    · exact ⟨hm, hcq, hB⟩
    · exact absurd habs (by simp)
  · rintro ⟨hm, hcq, hmin⟩
    cases hres : l.foldl (selStep cand bet) none with
    | none =>
      rw [selFold_eq_none] at hres
      exact absurd hcq (hres.2 q hm)
    | some r =>
      obtain ⟨hA, hB, -⟩ := selFold_some_sound cand bet hbt hnbt hirr l none r hres
      rcases hA with ⟨hrm, hrc⟩ | habs
      · have h1 : ¬ bet r.1 q.1 := hmin r hrm hrc
        have h2 : ¬ bet q.1 r.1 := hB q hm hcq
        have hfst : q.1 = r.1 := hconn _ _ h2 h1
        have : q = r := List.inj_on_of_nodup_map hnd hm hrm hfst
        rw [this]
      · exact absurd habs (by simp)

end ConsensusScan

/-- C1: for every target height and every iteration order of a client's
consensus-state index (heights pairwise distinct, as they are storage
keys), `next_consensus_state` returns exactly the value stored at the
least indexed height strictly greater than the target (`None` when no
indexed height exceeds it), `prev_consensus_state` returns exactly the
value stored at the greatest indexed height strictly less than the target
(`None` when none is below), neither ever selects an entry at the target
height itself (the characterizations require strict inequality), and both
results are invariant under permutation of the iteration order. -/
theorem consensus_state_search_spec {V : Type} (entries : List (Height × V))
    (target : Height) (hnd : (entries.map Prod.fst).Nodup) :
    (∀ v : V, next_consensus_state entries target = some v ↔
      ∃ h, (h, v) ∈ entries ∧ heightLt target h ∧
        ∀ p ∈ entries, heightLt target p.1 → ¬ heightLt p.1 h) ∧
    (next_consensus_state entries target = none ↔
      ∀ p ∈ entries, ¬ heightLt target p.1) ∧
    (∀ v : V, prev_consensus_state entries target = some v ↔
      ∃ h, (h, v) ∈ entries ∧ heightLt h target ∧
        ∀ p ∈ entries, heightLt p.1 target → ¬ heightLt h p.1) ∧
    (prev_consensus_state entries target = none ↔
      ∀ p ∈ entries, ¬ heightLt p.1 target) ∧
    (∀ l2 : List (Height × V), entries.Perm l2 →
      next_consensus_state entries target = next_consensus_state l2 target ∧
      prev_consensus_state entries target = prev_consensus_state l2 target) := by
  have hbt1 : ∀ x y z : Height, heightLt x y → heightLt y z → heightLt x z :=
    fun _ _ _ => heightLt_trans
  have hnbt1 : ∀ x y z : Height,
      ¬ heightLt x y → ¬ heightLt y z → ¬ heightLt x z :=
    fun _ _ _ => not_heightLt_trans
  have hconn1 : ∀ x y : Height, ¬ heightLt x y → ¬ heightLt y x → x = y :=
    fun _ _ => heightLt_conn
  have hbt2 : ∀ x y z : Height, heightLt y x → heightLt z y → heightLt z x :=
    fun _ _ _ h1 h2 => heightLt_trans h2 h1
  have hnbt2 : ∀ x y z : Height,
      ¬ heightLt y x → ¬ heightLt z y → ¬ heightLt z x :=
    fun _ _ _ h1 h2 => not_heightLt_trans h2 h1
  have hconn2 : ∀ x y : Height, ¬ heightLt y x → ¬ heightLt x y → x = y :=
    fun _ _ h1 h2 => heightLt_conn h2 h1
  have hnextchar : ∀ (l : List (Height × V)), (l.map Prod.fst).Nodup →
      ∀ v : V, next_consensus_state l target = some v ↔
        ∃ h, (h, v) ∈ l ∧ heightLt target h ∧
          ∀ p ∈ l, heightLt target p.1 → ¬ heightLt p.1 h := by
    intro l hndl v
    rw [next_consensus_state, Option.map_eq_some']
    constructor
    · rintro ⟨⟨qh, qv⟩, hq, hqv⟩
      simp only at hqv
      subst hqv
      rw [selFold_some_iff _ _ hbt1 hnbt1 heightLt_irrefl hconn1 l hndl] at hq
      exact ⟨qh, hq.1, hq.2.1, hq.2.2⟩
    · rintro ⟨h, hm, hcand, hmin⟩
      refine ⟨(h, v), ?_, rfl⟩
      rw [selFold_some_iff _ _ hbt1 hnbt1 heightLt_irrefl hconn1 l hndl]
      exact ⟨hm, hcand, hmin⟩
  have hnextnone : ∀ l : List (Height × V),
      next_consensus_state l target = none ↔
        ∀ p ∈ l, ¬ heightLt target p.1 := by
    intro l
    rw [next_consensus_state, Option.map_eq_none', selFold_eq_none]
    simp
  have hprevchar : ∀ (l : List (Height × V)), (l.map Prod.fst).Nodup →
      ∀ v : V, prev_consensus_state l target = some v ↔
        ∃ h, (h, v) ∈ l ∧ heightLt h target ∧
          ∀ p ∈ l, heightLt p.1 target → ¬ heightLt h p.1 := by
    intro l hndl v
    rw [prev_consensus_state, Option.map_eq_some']
    constructor
    · rintro ⟨⟨qh, qv⟩, hq, hqv⟩
      simp only at hqv
      subst hqv
      rw [selFold_some_iff _ _ hbt2 hnbt2 heightLt_irrefl hconn2 l hndl] at hq
      exact ⟨qh, hq.1, hq.2.1, hq.2.2⟩
    · rintro ⟨h, hm, hcand, hmin⟩
      refine ⟨(h, v), ?_, rfl⟩
      rw [selFold_some_iff _ _ hbt2 hnbt2 heightLt_irrefl hconn2 l hndl]
      exact ⟨hm, hcand, hmin⟩
  have hprevnone : ∀ l : List (Height × V),
      prev_consensus_state l target = none ↔
        ∀ p ∈ l, ¬ heightLt p.1 target := by
    intro l
    rw [prev_consensus_state, Option.map_eq_none', selFold_eq_none]
    simp
  refine ⟨hnextchar entries hnd, hnextnone entries, hprevchar entries hnd,
    hprevnone entries, ?_⟩
  intro l2 hperm
  have hnd2 : (l2.map Prod.fst).Nodup := ((hperm.map Prod.fst).nodup_iff).mp hnd
  constructor
  · cases hl2 : next_consensus_state l2 target with
    | none =>
      rw [hnextnone] at hl2
      rw [hnextnone]
      exact fun p hp => hl2 p (hperm.mem_iff.mp hp)
    | some v =>
      rw [hnextchar l2 hnd2] at hl2
      obtain ⟨h, hm, hcand, hmin⟩ := hl2
      rw [hnextchar entries hnd]
      exact ⟨h, hperm.mem_iff.mpr hm, hcand,
        fun p hp => hmin p (hperm.mem_iff.mp hp)⟩
  · cases hl2 : prev_consensus_state l2 target with
    | none =>
      rw [hprevnone] at hl2
      rw [hprevnone]
      exact fun p hp => hl2 p (hperm.mem_iff.mp hp)
    | some v =>
      rw [hprevchar l2 hnd2] at hl2
      obtain ⟨h, hm, hcand, hmin⟩ := hl2
      rw [hprevchar entries hnd]
      exact ⟨h, hperm.mem_iff.mpr hm, hcand,
        fun p hp => hmin p (hperm.mem_iff.mp hp)⟩

/-- Concrete consensus-state index for the C1 witness: heights 5, 9, 14,
20 (revision number 0) with distinct payloads. -/
def c1Entries : List (Height × Nat) :=
  [(⟨0, 5⟩, 105), (⟨0, 9⟩, 109), (⟨0, 14⟩, 114), (⟨0, 20⟩, 120)]

/-- Witness for C1 at the spec's scenario (index {5, 9, 14, 20}). -/
theorem consensus_state_search_spec_witness :
    ((c1Entries.map Prod.fst).Nodup) ∧
    ((∀ v : Nat, next_consensus_state c1Entries ⟨0, 10⟩ = some v ↔
      ∃ h, (h, v) ∈ c1Entries ∧ heightLt ⟨0, 10⟩ h ∧
        ∀ p ∈ c1Entries, heightLt ⟨0, 10⟩ p.1 → ¬ heightLt p.1 h) ∧
    (next_consensus_state c1Entries ⟨0, 10⟩ = none ↔
      ∀ p ∈ c1Entries, ¬ heightLt ⟨0, 10⟩ p.1) ∧
    (∀ v : Nat, prev_consensus_state c1Entries ⟨0, 10⟩ = some v ↔
      ∃ h, (h, v) ∈ c1Entries ∧ heightLt h ⟨0, 10⟩ ∧
        ∀ p ∈ c1Entries, heightLt p.1 ⟨0, 10⟩ → ¬ heightLt h p.1) ∧
    (prev_consensus_state c1Entries ⟨0, 10⟩ = none ↔
      ∀ p ∈ c1Entries, ¬ heightLt p.1 ⟨0, 10⟩) ∧
    (∀ l2 : List (Height × Nat), c1Entries.Perm l2 →
      next_consensus_state c1Entries ⟨0, 10⟩ = next_consensus_state l2 ⟨0, 10⟩ ∧
      prev_consensus_state c1Entries ⟨0, 10⟩ =
        prev_consensus_state l2 ⟨0, 10⟩)) :=
  ⟨by decide, consensus_state_search_spec c1Entries ⟨0, 10⟩ (by decide)⟩

/-! Part: `validate_self_client` (C4, C8) -/

/-- Model of `ProofSpecs`: the host's commitment proof specifications,
opaque here (numeric codes), compared for equality only. -/
abbrev ProofSpecs := List Nat

/-- The Tendermint `ClientState` fields read by `validate_self_client`.
`chain_id` is the textual identifier (`ChainId::to_string`),
`chain_id_version` its parsed revision (`ChainId::version`); the trust
level is the rational `trust_level_numerator / trust_level_denominator`
(two `u64`s). -/
structure TmClientState where
  is_frozen : Bool
  chain_id : String
  chain_id_version : Nat
  latest_height : Height
  proof_specs : ProofSpecs
  trust_level_numerator : Nat
  trust_level_denominator : Nat
  deriving DecidableEq, Repr

/-- The outcome of the external decode and downcast of the counterparty's
`Any`-encoded client state (`decode_client_state` followed by
`downcast_client_state::<TmClientState>`). -/
inductive DecodedClientState
  | decodeFailed
  | notTendermint
  | tendermint (cs : TmClientState)
  deriving DecidableEq, Repr

/-- The distinguishable failures of `validate_self_client`, in source
order; each corresponds to one error description string of the source. -/
inductive SelfClientError
  | decodeFailed
  | notTendermint
  | frozen
  | chainIdMismatch
  | chainIdRevisionNonZero
  | heightTooHigh
  | proofSpecsMismatch
  | trustThresholdTooLow
  deriving DecidableEq, Repr

/-- The host-chain values read by `validate_self_client` (`get_chain_id`,
`get_height`, `get_proof_specs`); the reads are modelled as total — the
claims presuppose the storage reads succeed. -/
structure HostContext where
  chain_id : String
  height : Nat
  proof_specs : ProofSpecs
  deriving DecidableEq, Repr

/-- Model of `validate_self_client` (validation.rs lines 248-327): check
in order the decode/downcast outcome, the frozen flag, chain-id string
equality, zero chain-id revision, `latest_height().revision_height() >=
height.0` (error when the counterparty height is not strictly below the
host height), proof-spec equality, and finally the trust threshold, which
the source computes with `u64` integer division on both sides
(`numerator() / denominator()` against `TrustThreshold::ONE_THIRD`'s
`1 / 3 = 0`, here `Nat` division). -/
def validate_self_client (host : HostContext)
    (counterparty : DecodedClientState) : Except SelfClientError Unit :=
  match counterparty with
  | .decodeFailed => .error .decodeFailed
  | .notTendermint => .error .notTendermint
  | .tendermint cs =>
    if cs.is_frozen then .error .frozen
    else if cs.chain_id ≠ host.chain_id then .error .chainIdMismatch
    else if cs.chain_id_version ≠ 0 then .error .chainIdRevisionNonZero
    else if cs.latest_height.revision_height ≥ host.height then
      .error .heightTooHigh
    else if cs.proof_specs ≠ host.proof_specs then .error .proofSpecsMismatch
    else
      let trust_level := cs.trust_level_numerator / cs.trust_level_denominator
      let min_level : Nat := 1 / 3
      if trust_level < min_level then .error .trustThresholdTooLow
      else .ok ()

/-- C4: the trust-threshold comparison of `validate_self_client` is
integer division on the rational's components (`floor(n/d)` against
`floor(1/3) = 0`), so for every counterparty Tendermint client state that
passes the decode, frozen, chain-id, zero-revision, height and proof-spec
checks and whose trust level is a non-zero rational (`n ≠ 0`, `d ≠ 0`),
the trust-threshold error is never returned and `validate_self_client`
returns `Ok`. -/
theorem validate_self_client_trust_threshold (host : HostContext)
    (cs : TmClientState)
    (hfrozen : cs.is_frozen = false)
    (hchain : cs.chain_id = host.chain_id)
    (hver : cs.chain_id_version = 0)
    (hheight : cs.latest_height.revision_height < host.height)
    (hspecs : cs.proof_specs = host.proof_specs)
    (hnum : cs.trust_level_numerator ≠ 0)
    (hden : cs.trust_level_denominator ≠ 0) :
    validate_self_client host (.tendermint cs) = .ok () := by
  simp only [validate_self_client]
  rw [if_neg (by simp [hfrozen]), if_neg (by simp [hchain]),
    if_neg (by simp [hver]), if_neg (by omega), if_neg (by simp [hspecs])]
  simp

/-- Witness for C4 at a concrete host and client state (trust level 1/3). -/
theorem validate_self_client_trust_threshold_witness :
    ((⟨false, "namada-test.0000000000000", 0, ⟨0, 50⟩, [1, 2], 1, 3⟩ :
        TmClientState).is_frozen = false) ∧
    validate_self_client ⟨"namada-test.0000000000000", 100, [1, 2]⟩
      (.tendermint ⟨false, "namada-test.0000000000000", 0, ⟨0, 50⟩,
        [1, 2], 1, 3⟩) = .ok () :=
  ⟨rfl,
    validate_self_client_trust_threshold
      ⟨"namada-test.0000000000000", 100, [1, 2]⟩
      ⟨false, "namada-test.0000000000000", 0, ⟨0, 50⟩, [1, 2], 1, 3⟩
      rfl rfl rfl (by decide) rfl (by decide) (by decide)⟩

/-- C8: given that the decode, frozen, chain-id equality and zero-revision
checks pass, `validate_self_client` raises the height error exactly when
the counterparty's `latest_height.revision_height` is greater than or
equal to the host's current block height; in particular equality is
rejected, and only strictly smaller heights pass the check. -/
theorem validate_self_client_height_check (host : HostContext)
    (cs : TmClientState)
    (hfrozen : cs.is_frozen = false)
    (hchain : cs.chain_id = host.chain_id)
    (hver : cs.chain_id_version = 0) :
    validate_self_client host (.tendermint cs) = .error .heightTooHigh ↔
      host.height ≤ cs.latest_height.revision_height := by
  simp only [validate_self_client]
  rw [if_neg (by simp [hfrozen]), if_neg (by simp [hchain]),
    if_neg (by simp [hver])]
  by_cases hh : cs.latest_height.revision_height ≥ host.height
  · rw [if_pos hh]
    simp [hh]
  · rw [if_neg hh]
    constructor
    · intro habs
      exfalso
      revert habs
      split_ifs <;> simp
    · intro hle
      exact absurd hle hh

/-- Witness for C8 at the spec's scenario 9: host height 100,
counterparty latest height 100 (equality) is rejected. -/
theorem validate_self_client_height_check_witness :
    ((⟨false, "namada-test.0000000000000", 0, ⟨0, 100⟩, [1, 2], 1, 3⟩ :
        TmClientState).is_frozen = false) ∧
    (validate_self_client ⟨"namada-test.0000000000000", 100, [1, 2]⟩
        (.tendermint ⟨false, "namada-test.0000000000000", 0, ⟨0, 100⟩,
          [1, 2], 1, 3⟩) = .error .heightTooHigh ↔
      (100 : Nat) ≤ 100) :=
  ⟨rfl,
    validate_self_client_height_check
      ⟨"namada-test.0000000000000", 100, [1, 2]⟩
      ⟨false, "namada-test.0000000000000", 0, ⟨0, 100⟩, [1, 2], 1, 3⟩
      rfl rfl rfl⟩

/-! Part: `client_update_time` / `client_update_height` (C9) -/

/-- The outcome of a storage read (`ctx.read`): present bytes, absent, or
a storage error. -/
inductive ReadResult
  | found (value : List Nat)
  | absent
  | ioError
  deriving DecidableEq, Repr

/-- The client-error kinds distinguishable in `client_update_time` and
`client_update_height`: decode failure, the `ClientSpecific`
"doesn't exist" error raised on absence, and a failed read. -/
inductive ClientErrorKind
  | decodeFailed
  | clientSpecificMissing
  | readFailed
  deriving DecidableEq, Repr

/-- Modelled from the spec: `storage::client_update_timestamp_key` (the
`ledger::ibc::storage` module is not under `src/`) — the single per-client
update-time key `ibc/clients/<id>/update_time` of spec section 6; only its
dependence on the client id alone matters to the claims. -/
def client_update_timestamp_key (client_id : String) : String :=
  "ibc/clients/" ++ client_id ++ "/update_time"

/-- Modelled from the spec: `storage::client_update_height_key` — the
per-client key `ibc/clients/<id>/update_height` of spec section 6. -/
def client_update_height_key (client_id : String) : String :=
  "ibc/clients/" ++ client_id ++ "/update_height"

/-- Model of `client_update_time` (validation.rs lines 467-500): read the
single timestamp stored under the client's update-time key; the `_height`
argument is accepted but never used; absence of the value is the
`ClientSpecific` error.  `read` models the storage adapter, `decodeTime`
the external `TmTime::decode_vec`; timestamps are opaque (`Nat`). -/
def client_update_time (read : String → ReadResult)
    (decodeTime : List Nat → Option Nat) (client_id : String)
    (_height : Height) : Except ClientErrorKind Nat :=
  match read (client_update_timestamp_key client_id) with
  | .found value =>
    match decodeTime value with
    | some t => .ok t
    | none => .error .decodeFailed
  | .absent => .error .clientSpecificMissing
  | .ioError => .error .readFailed

/-- Model of `client_update_height` (validation.rs lines 502-532), the
height-typed analogue (`Height::decode_vec` is `decodeHeight`). -/
def client_update_height (read : String → ReadResult)
    (decodeHeight : List Nat → Option Height) (client_id : String)
    (_height : Height) : Except ClientErrorKind Height :=
  match read (client_update_height_key client_id) with
  | .found value =>
    match decodeHeight value with
    | some h => .ok h
    | none => .error .decodeFailed
  | .absent => .error .clientSpecificMissing
  | .ioError => .error .readFailed

/-- C9: `client_update_time` and `client_update_height` ignore the height
argument — for every fixed storage state, decoder and client id, any two
heights give identical results, and on absence of the stored value the
result is the `ClientSpecific` error; the outcome depends only on the
client id and the storage contents. -/
theorem client_update_ignores_height (read : String → ReadResult)
    (decodeTime : List Nat → Option Nat)
    (decodeHeight : List Nat → Option Height)
    (client_id : String) (h1 h2 : Height) :
    (client_update_time read decodeTime client_id h1 =
      client_update_time read decodeTime client_id h2) ∧
    (client_update_height read decodeHeight client_id h1 =
      client_update_height read decodeHeight client_id h2) ∧
    (read (client_update_timestamp_key client_id) = .absent →
      client_update_time read decodeTime client_id h1 =
        .error .clientSpecificMissing) ∧
    (read (client_update_height_key client_id) = .absent →
      client_update_height read decodeHeight client_id h1 =
        .error .clientSpecificMissing) := by
  refine ⟨rfl, rfl, fun ha => ?_, fun ha => ?_⟩
  · simp [client_update_time, ha]
  · simp [client_update_height, ha]

/-- Witness for C9 at a concrete empty storage state. -/
theorem client_update_ignores_height_witness :
    (client_update_time (fun _ => .absent) (fun _ => none)
        "07-tendermint-0" ⟨0, 1⟩ =
      client_update_time (fun _ => .absent) (fun _ => none)
        "07-tendermint-0" ⟨0, 2⟩) ∧
    (client_update_time (fun _ => .absent) (fun _ => none)
        "07-tendermint-0" ⟨0, 1⟩ = .error .clientSpecificMissing) :=
  ⟨(client_update_ignores_height (fun _ => .absent) (fun _ => none)
      (fun _ => none) "07-tendermint-0" ⟨0, 1⟩ ⟨0, 2⟩).1,
    (client_update_ignores_height (fun _ => .absent) (fun _ => none)
      (fun _ => none) "07-tendermint-0" ⟨0, 1⟩ ⟨0, 2⟩).2.2.1 rfl⟩

/-! Part: remaining witnesses -/

/-- Witness for C2 at a concrete successfully validated update. -/
theorem validate_update_monotone_witness :
    (validate_update ⟨"seen", "seen_by", "voting_power"⟩
        ⟨0, [], false⟩ ⟨0, [], false⟩ = .ok ∅) ∧
    (vkeysSet (⟨0, [], false⟩ : Tally).seen_by ⊆
        vkeysSet (⟨0, [], false⟩ : Tally).seen_by ∧
      (⟨0, [], false⟩ : Tally).voting_power ≤
        (⟨0, [], false⟩ : Tally).voting_power ∧
      ((⟨0, [], false⟩ : Tally).seen = true →
        (⟨0, [], false⟩ : Tally).seen = true)) :=
  ⟨by decide,
    validate_update_monotone ⟨"seen", "seen_by", "voting_power"⟩
      ⟨0, [], false⟩ ⟨0, [], false⟩ ∅ (by decide)⟩

/-- Voting powers for the C5 witness: validator 1 voted at height 10 with
power 1/2, validator 2 at height 12 with power 1/4. -/
def w5powers : Address × BlockHeight → Option FractionalVotingPower :=
  fun p =>
    if p = (1, 10) then some (mkRat 1 2)
    else if p = (2, 12) then some (mkRat 1 4) else none

/-- Witness for C5: both powers present, so the tally is built. -/
theorem calculate_new_spec_witness :
    (∀ p ∈ ([(1, 10), (2, 12)] : Votes), (w5powers p).isSome) ∧
    calculate_new [(1, 10), (2, 12)] w5powers =
      .ok ⟨(([(1, 10), (2, 12)] : Votes).map
          (fun p => (w5powers p).getD 0)).sum,
        [(1, 10), (2, 12)],
        decide (TWO_THIRDS < (([(1, 10), (2, 12)] : Votes).map
          (fun p => (w5powers p).getD 0)).sum)⟩ :=
  ⟨by decide, (calculate_new_spec [(1, 10), (2, 12)] w5powers).2.1 (by decide)⟩

/-- The pre-tally for the C6 witness (spec scenario 3): power 1/2, seen by
validator 1 at height 10, not yet seen. -/
def w6pre : Tally := ⟨mkRat 1 2, [(1, 10)], false⟩

/-- The vote info for the C6 witness: validator 2 votes at height 12 with
power 1/4. -/
def w6vi : VoteInfo := [(2, 12, mkRat 1 4)]

/-- Witness for C6 at the spec's quorum-crossing scenario. -/
theorem calculate_update_spec_witness :
    ((w6vi.map Prod.fst).Nodup) ∧
    (((∃ e, calculate_update w6pre w6vi = .error e) ↔
        ∃ a ∈ voters w6vi, a ∈ vkeysSet w6pre.seen_by) ∧
      ((∀ a ∈ voters w6vi, a ∉ vkeysSet w6pre.seen_by) →
        ∃ t, calculate_update w6pre w6vi = .ok t ∧
          t.voting_power =
            w6pre.voting_power + (w6vi.map (fun e => e.2.2)).sum ∧
          (∀ e ∈ w6vi, vlookup t.seen_by e.1 = some e.2.1) ∧
          (∀ a, a ∉ voters w6vi →
            vlookup t.seen_by a = vlookup w6pre.seen_by a) ∧
          (t.seen = true ↔ TWO_THIRDS < t.voting_power))) :=
  ⟨by decide, calculate_update_spec w6pre w6vi (by decide)⟩
